import Mathlib

/-!
Verification of the builder-elimination pass in
`src/opt/remove-builders/RemoveBuildersHelper.cpp`.

The development shallowly embeds the pass: instructions, the per-field
abstract state (`FieldOrRegStatus`), the transfer function
(`fields_mapping`), the meet (`FieldsRegs.meet`), the planner loop and
commit of `remove_builder`, the register-frame allocator
(`enlarge_register_frame`) and `inline_build`.  The method body is
modelled as the single block of its control-flow graph: the generic CFG
and dataflow solver (`ControlFlow.h`, `Dataflow.h`) are external to the
sources, so `fields_setters` computes the forward in-states by a fold
over the instruction list, which is exactly what `forwards_dataflow`
does on a one-block CFG.  Machine registers are `Nat` (register numbers
are small and the only arithmetic is addition and the comparison with
the ceiling 16, so no overflow is reachable).
-/

namespace RB

/-- Move-width category of a value: `OPCODE_MOVE`, `OPCODE_MOVE_OBJECT`
or `OPCODE_MOVE_WIDE` in the source. -/
inductive MoveKind
  | plain
  | object
  | wide
deriving DecidableEq, Repr

/-- Opcode categories distinguished by the pass.  `iput`/`iget` carry
the width category of the accessed field (`IPUT` vs `IPUT_OBJECT` vs
`IPUT_WIDE` and likewise for `IGET`). -/
inductive Opcode
  | iput (k : MoveKind)
  | iget (k : MoveKind)
  | newInstance
  | invoke
  | move (k : MoveKind)
  | const4
  | other
deriving DecidableEq, Repr

/-- A field reference: declaring class and field identity
(`DexField` is identified by its declaring type here). -/
structure FieldRef where
  cls : Nat
  fid : Nat
deriving DecidableEq, Repr

/-- A method reference: declaring class and name
(the name `0` encodes the interned string for the constructor name,
see `initName`). -/
structure MethodRef where
  cls : Nat
  name : Nat
deriving DecidableEq, Repr

/-- One IR instruction.  `idx` models pointer identity of the C++
`IRInstruction*` (two textually equal instructions at different program
points have different `idx`).  `dest` is the optional destination
register, `destWide` the `dest_is_wide()` flag, `srcs` the source
registers, and `field` / `typeRef` / `methodRef` the operand of a
field, type or method instruction.  `lit` is the literal of a constant
load. -/
structure Insn where
  idx : Nat
  opcode : Opcode
  dest : Option Nat
  destWide : Bool
  srcs : List Nat
  field : Option FieldRef
  typeRef : Option Nat
  methodRef : Option MethodRef
  lit : Option Int
deriving DecidableEq, Repr

/-- Interned string id of the constructor name, the source's
`DexString::make_string("<init>")`. -/
def initName : Nat := 0

/-- Interned string id of the build-method name, the source's
`DexString::make_string("build")`. -/
def buildName : Nat := 1

def isIput : Opcode → Bool
  | .iput _ => true
  | _ => false

def isIget : Opcode → Bool
  | .iget _ => true
  | _ => false

def isInvoke : Opcode → Bool
  | .invoke => true
  | _ => false

/-- Modelled from the spec: the header `RemoveBuildersHelper.h` that
declares `FieldOrRegStatus` is not among the sources; spec section 3
lists the lattice states (`DEFAULT` is the spec's `Bottom`, and a
non-negative value is the register currently holding the field). -/
inductive FieldOrRegStatus
  | default
  | undefined
  | different
  | overwritten
  | reg (r : Nat)
deriving DecidableEq, Repr

/-- The per-field abstract state: the status together with the
originating field-write instruction (`field_to_iput_insn` in the
source, `nullptr` modelled as `none`). -/
structure FieldState where
  status : FieldOrRegStatus
  iput : Option Insn
deriving DecidableEq, Repr

/-- The abstract state of all fields of the builder at a program point:
the source's `FieldsRegs` structure, whose two maps keyed by the
builder's fields are combined into one association list. -/
abbrev FieldsRegs := List (FieldRef × FieldState)

/-- The builder class targeted for elimination: its type, its declared
instance fields and its virtual methods (searched for the designated
build method). -/
structure Builder where
  type : Nat
  ifields : List FieldRef
  vmethods : List MethodRef
deriving DecidableEq, Repr

/-- A method body: register-frame size, number of input (parameter)
registers, and the instruction sequence (the single block of the CFG). -/
structure Code where
  registersSize : Nat
  insSize : Nat
  insns : List Insn
deriving DecidableEq, Repr

/-- A method, which may lack a body (`get_code()` returning `nullptr`). -/
structure Method where
  code : Option Code
deriving DecidableEq, Repr

/-- Modelled from the spec: the `FieldsRegs(builder)` constructor lives
in the missing header; spec section 3 gives one lattice instance per
declared field of the builder, starting at bottom. -/
def initFieldsRegs (builder : Builder) : FieldsRegs :=
  builder.ifields.map (fun f => (f, ⟨FieldOrRegStatus.default, none⟩))

/-- First binding of a field in the association list. -/
def findF : FieldsRegs → FieldRef → Option FieldState
  | [], _ => none
  | p :: ps, f => if p.1 = f then some p.2 else findF ps f

/-- Lookup with the default used by an absent key. -/
def lookupF (l : FieldsRegs) (f : FieldRef) : FieldState :=
  (findF l f).getD ⟨FieldOrRegStatus.default, none⟩

/-- Map-style update: replaces the binding of `f` when present,
appends it otherwise (the behaviour of `operator[]` followed by
assignment on the source's maps). -/
def putField (l : FieldsRegs) (f : FieldRef) (st : FieldState) : FieldsRegs :=
  if l.any (fun p => p.1 = f) then
    l.map (fun p => if p.1 = f then (f, st) else p)
  else l ++ [(f, st)]

/-- Pointwise transformation of every field's state. -/
def mapVals (h : FieldState → FieldState) (l : FieldsRegs) : FieldsRegs :=
  l.map (fun p => (p.1, h p.2))

/-- Step one of the transfer function: every `DEFAULT` field becomes
`UNDEFINED`. -/
def demoteDefault (st : FieldState) : FieldState :=
  if st.status = FieldOrRegStatus.default then ⟨FieldOrRegStatus.undefined, st.iput⟩
  else st

/-- Step two of the transfer function: a field whose register is the
instruction's destination (or, for a wide destination, the destination
plus one) becomes `OVERWRITTEN`. -/
def overwriteByDest (insn : Insn) (st : FieldState) : FieldState :=
  match insn.dest with
  | none => st
  | some d =>
    if st.status = FieldOrRegStatus.reg d ∨
        (insn.destWide = true ∧ st.status = FieldOrRegStatus.reg (d + 1)) then
      ⟨FieldOrRegStatus.overwritten, st.iput⟩
    else st

/-- The per-instruction transfer function `fields_mapping` of the
source: demote `DEFAULT` to `UNDEFINED`, mark fields held in the
destination register `OVERWRITTEN`, and record a builder field access
(`iput` when `isSetter`, `iget` otherwise) as
`Register(source register)` remembering the write instruction. -/
def fields_mapping (insn : Insn) (fregs : FieldsRegs) (builder : Builder)
    (isSetter : Bool) : FieldsRegs :=
  let fregs1 := mapVals demoteDefault fregs
  let fregs2 := mapVals (overwriteByDest insn) fregs1
  if (isSetter && isIput insn.opcode) || (!isSetter && isIget insn.opcode) then
    match insn.field with
    | some fld =>
      if fld.cls = builder.type then
        let current := if isSetter then insn.srcs.headD 0 else insn.dest.getD 0
        let old := lookupF fregs2 fld
        putField fregs2 fld
          ⟨FieldOrRegStatus.reg current, if isSetter then some insn else old.iput⟩
      else fregs2
    | none => fregs2
  else fregs2

/-- Join of two per-field states, the body of the source's
`FieldsRegs::meet` loop for one field: `DEFAULT` yields the other side
(both status and write instruction), a `DEFAULT` right side keeps the
left side, two disagreeing statuses become `DIFFERENT` with the write
instruction cleared, and two equal statuses keep the left side. -/
def meetField (a b : FieldState) : FieldState :=
  if a.status = FieldOrRegStatus.default then b
  else if b.status = FieldOrRegStatus.default then a
  else if a.status ≠ b.status then ⟨FieldOrRegStatus.different, none⟩
  else a

/-- The source's `FieldsRegs::meet`, folding `meetField` over the
fields of the left state. -/
def FieldsRegs.meet (a b : FieldsRegs) : FieldsRegs :=
  a.map (fun p => (p.1, meetField p.2 (lookupF b p.1)))

/-- Forward in-states for a straight-line block: pairs every
instruction with the abstract state reaching it.  This is the source's
`fields_setters` (which runs `forwards_dataflow` with
`fields_mapping(_, _, builder, true)`) restricted to a one-block CFG,
where the forward fixpoint degenerates to a single left-to-right fold;
`Dataflow.h` itself is external to the sources. -/
def fields_setters : FieldsRegs → Builder → List Insn → List (Insn × FieldsRegs)
  | _, _, [] => []
  | fr, b, i :: is => (i, fr) :: fields_setters (fields_mapping i fr b true) b is

/-- The source's `enlarge_register_frame`: pure bookkeeping on the
register-frame size.  Returns the new size, or `none` when the new
size would exceed the architectural ceiling of 16. -/
def enlarge_register_frame (oldregs extra_regs : Nat) : Option Nat :=
  let newregs := oldregs + extra_regs
  if newregs > 16 then none else some newregs

/-- The source's `get_move_opcode`: the move kind matching a
field-write's opcode category. -/
def get_move_opcode (insn : Insn) : MoveKind :=
  match insn.opcode with
  | .iput .wide => .wide
  | .iput .object => .object
  | _ => .plain

/-- A synthesized register-to-register move instruction. -/
def mkMove (k : MoveKind) (destReg srcReg : Nat) : Insn :=
  ⟨0, Opcode.move k, some destReg,
    (match k with | .wide => true | _ => false),
    [srcReg], none, none, none, none⟩

/-- The constant load synthesized by `add_null_instr`: a `CONST_4`
loading literal 0 into the shared null register. -/
def nullConstInsn (reg : Nat) : Insn :=
  ⟨0, Opcode.const4, some reg, false, [], none, none, none, some 0⟩

/-- The source's `add_null_instr`: inserts the null constant load at
the beginning of the method (`insert_after(nullptr, _)`). -/
def add_null_instr (insns : List Insn) (reg : Nat) : List Insn :=
  nullConstInsn reg :: insns

/-- Insertion of new instructions immediately after the first
occurrence of the anchor instruction, the source's
`IRCode::insert_after` with a non-null position. -/
def insertAfter : List Insn → Insn → List Insn → List Insn
  | [], _, _ => []
  | x :: xs, posn, new =>
    if x = posn then x :: (new ++ xs) else x :: insertAfter xs posn new

/-- The source's `add_move_instr`: a move `destReg ← srcReg` of the
given kind inserted after `posn`. -/
def add_move_instr (insns : List Insn) (posn : Insn) (srcReg destReg : Nat)
    (k : MoveKind) : List Insn :=
  insertAfter insns posn [mkMove k destReg srcReg]

/-- The planner's move list, the source's `MoveList`: the anchor
instruction together with the synthesized register and the move kind. -/
abbrev MoveList := List (Insn × Nat × MoveKind)

def findMove : MoveList → Insn → Option (Nat × MoveKind)
  | [], _ => none
  | m :: ms, i => if m.1 = i then some m.2 else findMove ms i

/-- Removal of the first occurrence of an instruction, the source's
`IRCode::remove_opcode`. -/
def eraseFirst : List Insn → Insn → List Insn
  | [], _ => []
  | x :: xs, d => if x = d then xs else x :: eraseFirst xs d

/-- One entry of the source's `method_updates` loop: an `iput` anchor
gets `move new_reg ← src(0)` after it, an `iget` anchor gets
`move dest ← new_reg` after it. -/
def applyMove (insns : List Insn) (m : Insn × Nat × MoveKind) : List Insn :=
  let insn := m.1
  let newReg := m.2.1
  let isIputInsn := isIput insn.opcode
  let insnReg := if isIputInsn then insn.srcs.headD 0 else insn.dest.getD 0
  let srcReg := if isIputInsn then insnReg else newReg
  let destReg := if isIputInsn then newReg else insnReg
  add_move_instr insns insn srcReg destReg m.2.2

/-- The source's `method_updates`: insert every planned move after its
anchor, then delete every marked instruction. -/
def method_updates (insns : List Insn) (deletes : List Insn)
    (moveList : MoveList) : List Insn :=
  let withMoves := moveList.foldl applyMove insns
  deletes.foldl eraseFirst withMoves

/-- Accumulated state of the planner loop in `remove_builder`:
instructions marked for deletion, planned moves, count of extra
registers, and the lazily allocated null register (`none` models the
`UNDEFINED` sentinel of the source's `null_reg`). -/
structure PlanState where
  deletes : List Insn
  moves : MoveList
  extraRegs : Nat
  nullReg : Option Nat
deriving DecidableEq, Repr

def emptyPlan : PlanState := ⟨[], [], 0, none⟩

/-- One iteration of the planner loop of `remove_builder`, for one
instruction with its in-state.  `none` is an abort of the whole
transformation (an ambiguous field value, or a bridge without an
identifiable originating write). -/
def planInsn (builder : Builder) (nonInput : Nat) (st : PlanState)
    (insn : Insn) (fin : FieldsRegs) : Option PlanState :=
  if isIput insn.opcode then
    match insn.field with
    | some fld =>
      if fld.cls = builder.type then
        some { st with deletes := st.deletes ++ [insn] }
      else some st
    | none => some st
  else if isIget insn.opcode then
    match insn.field with
    | some fld =>
      if fld.cls = builder.type then
        let fst0 := lookupF fin fld
        if fst0.status = FieldOrRegStatus.different then none
        else if fst0.status = FieldOrRegStatus.undefined then
          match st.nullReg with
          | none =>
            some { st with
              nullReg := some (nonInput + st.extraRegs),
              extraRegs := st.extraRegs + 1,
              moves := st.moves ++ [(insn, nonInput + st.extraRegs, MoveKind.plain)],
              deletes := st.deletes ++ [insn] }
          | some nr =>
            some { st with
              moves := st.moves ++ [(insn, nr, MoveKind.plain)],
              deletes := st.deletes ++ [insn] }
        else
          match fst0.iput with
          | none => none
          | some iputInsn =>
            let mvk := get_move_opcode iputInsn
            match findMove st.moves iputInsn with
            | some pr =>
              some { st with
                moves := st.moves ++ [(insn, pr.1, mvk)],
                deletes := st.deletes ++ [insn] }
            | none =>
              if fst0.status = FieldOrRegStatus.overwritten then
                some { st with
                  moves := st.moves ++
                    [(iputInsn, nonInput + st.extraRegs, mvk),
                     (insn, nonInput + st.extraRegs, mvk)],
                  extraRegs := st.extraRegs + (if mvk = MoveKind.wide then 2 else 1),
                  deletes := st.deletes ++ [insn] }
              else
                some { st with
                  moves := st.moves ++ [(insn, iputInsn.srcs.headD 0, mvk)],
                  deletes := st.deletes ++ [insn] }
      else some st
    | none => some st
  else if insn.opcode = Opcode.newInstance then
    if insn.typeRef = some builder.type then
      some { st with deletes := st.deletes ++ [insn] }
    else some st
  else if isInvoke insn.opcode then
    match insn.methodRef with
    | some mr =>
      if mr.cls = builder.type ∧ mr.name = initName then
        some { st with deletes := st.deletes ++ [insn] }
      else some st
    | none => some st
  else some st

/-- The planner loop folded over all instructions with their
in-states. -/
def planStates (builder : Builder) (nonInput : Nat) :
    List (Insn × FieldsRegs) → PlanState → Option PlanState
  | [], st => some st
  | p :: ps, st =>
    match planInsn builder nonInput st p.1 p.2 with
    | none => none
    | some st2 => planStates builder nonInput ps st2

/-- The complete planning phase of `remove_builder` on a method body:
dataflow followed by the planner loop, before any mutation. -/
def buildPlan (builder : Builder) (code : Code) : Option PlanState :=
  planStates builder (code.registersSize - code.insSize)
    (fields_setters (initFieldsRegs builder) builder code.insns) emptyPlan

/-- The source's `remove_builder`: plan, then check the register
budget, then commit (null-register constant, planned moves,
deletions).  Every abort path returns the untouched method with
`false`. -/
def remove_builder (m : Method) (builder : Builder) : Bool × Method :=
  match m.code with
  | none => (false, m)
  | some code =>
    match buildPlan builder code with
    | none => (false, m)
    | some plan =>
      match enlarge_register_frame code.registersSize plan.extraRegs with
      | none => (false, m)
      | some newRegs =>
        let insns1 :=
          match plan.nullReg with
          | some r => add_null_instr code.insns r
          | none => code.insns
        let insns2 := method_updates insns1 plan.deletes plan.moves
        (true, ⟨some ⟨newRegs, code.insSize, insns2⟩⟩)

/-- The source's `get_build_method`: the first virtual method of the
builder named `build`. -/
def get_build_method (vmethods : List MethodRef) : Option MethodRef :=
  vmethods.find? (fun m => m.name = buildName)

/-- Invocations of the builder's designated build method inside a
method body. -/
def buildInvocations (b : Builder) (code : Code) : List Insn :=
  code.insns.filter (fun i =>
    isInvoke i.opcode &&
      (match get_build_method b.vmethods, i.methodRef with
       | some bm, some mr => mr = bm
       | _, _ => false))

/-- The source's `inline_build`, parametrized by the external inliner
(`IRCode::inline_method`, not among the sources): collect the
invocations of the build method, abort when more than one exists,
otherwise inline the single call site; a failing inliner aborts. -/
def inline_build (inliner : Code → Insn → Option Code) (m : Method)
    (b : Builder) : Bool × Method :=
  match m.code with
  | none => (false, m)
  | some code =>
    let inlinables := buildInvocations b code
    if inlinables.length > 1 then (false, m)
    else
      match inlinables with
      | [] => (true, m)
      | site :: _ =>
        match inliner code site with
        | none => (false, m)
        | some code2 => (true, ⟨some code2⟩)

/-- An instruction referencing the builder type in one of the four
categories eliminated by the pass: a field access on a field declared
by the builder, an allocation of the builder type, or a constructor
call targeting the builder type. -/
def referencesBuilder (b : Builder) (i : Insn) : Bool :=
  ((isIput i.opcode || isIget i.opcode) &&
    (match i.field with
     | some f => f.cls = b.type
     | none => false)) ||
  (decide (i.opcode = Opcode.newInstance) && decide (i.typeRef = some b.type)) ||
  (isInvoke i.opcode &&
    (match i.methodRef with
     | some mr => decide (mr.cls = b.type) && decide (mr.name = initName)
     | none => false))

/-- Reference per-field meet written from the spec's words (section
4.1): bottom yields the other side; if either side is `Undefined`, the
other side's write reference is carried along and `Undefined` is kept
only if the other side provides no write; equal registers join to that
register; two defined but disagreeing values join to `Different`; if
either side is `Overwritten` once both are otherwise comparable, the
join is `Overwritten`. -/
def specMeetField (a b : FieldState) : FieldState :=
  if a.status = FieldOrRegStatus.default then b
  else if b.status = FieldOrRegStatus.default then a
  else if a.status = FieldOrRegStatus.undefined then
    match b.iput with
    | some w => ⟨b.status, some w⟩
    | none => ⟨FieldOrRegStatus.undefined, a.iput⟩
  else if b.status = FieldOrRegStatus.undefined then
    match a.iput with
    | some w => ⟨a.status, some w⟩
    | none => ⟨FieldOrRegStatus.undefined, b.iput⟩
  else if a.status = FieldOrRegStatus.overwritten ∨
      b.status = FieldOrRegStatus.overwritten then
    ⟨FieldOrRegStatus.overwritten, none⟩
  else
    match a.status, b.status with
    | FieldOrRegStatus.reg r, FieldOrRegStatus.reg s =>
      if r = s then a else ⟨FieldOrRegStatus.different, none⟩
    | _, _ => ⟨FieldOrRegStatus.different, none⟩

/-- Reference per-field meet amended to what the source computes:
bottom yields the other side (status and write reference); two equal
statuses keep the left side unchanged; any two differing non-bottom
statuses, `Undefined` versus a register and `Overwritten` versus a
register included, join to `Different` with the write reference
cleared. -/
def amendedMeetField (a b : FieldState) : FieldState :=
  match a.status, b.status with
  | FieldOrRegStatus.default, _ => b
  | _, FieldOrRegStatus.default => a
  | FieldOrRegStatus.undefined, FieldOrRegStatus.undefined => a
  | FieldOrRegStatus.different, FieldOrRegStatus.different => a
  | FieldOrRegStatus.overwritten, FieldOrRegStatus.overwritten => a
  | FieldOrRegStatus.reg r, FieldOrRegStatus.reg s =>
    if r = s then a else ⟨FieldOrRegStatus.different, none⟩
  | _, _ => ⟨FieldOrRegStatus.different, none⟩

/-- Number of occurrences of an instruction in a list. -/
def occCount (v : Insn) : List Insn → Nat
  | [] => 0
  | x :: xs => (if x = v then 1 else 0) + occCount v xs

/-- The builder field `x`. -/
def fX : FieldRef := ⟨100, 1⟩

/-- A builder class with one instance field and a `build` method. -/
def bLin : Builder := ⟨100, [fX], [⟨100, buildName⟩]⟩

def iNew : Insn := ⟨1, Opcode.newInstance, some 1, false, [], none, some 100, none, none⟩

def iInit : Insn := ⟨2, Opcode.invoke, none, false, [1], none, none, some ⟨100, initName⟩, none⟩

def iConst : Insn := ⟨3, Opcode.const4, some 0, false, [], none, none, none, some 7⟩

def iPut : Insn := ⟨4, Opcode.iput MoveKind.plain, none, false, [0, 1], some fX, none, none, none⟩

def iGet : Insn := ⟨5, Opcode.iget MoveKind.plain, some 2, false, [1], some fX, none, none, none⟩

/-- The linear builder method body: three registers, no parameters. -/
def cLin : Code := ⟨3, 0, [iNew, iInit, iConst, iPut, iGet]⟩

def mLin : Method := ⟨some cLin⟩

/-- The expected result of eliminating the builder from `mLin`: the
constant load survives and the field read became `move v2 ← v0`; the
register frame is untouched. -/
def mLinResult : Method := ⟨some ⟨3, 0, [iConst, mkMove MoveKind.plain 2 0]⟩⟩

/-- A 16-register method whose single field read is `Undefined`, so
the required null register exceeds the budget. -/
def cBudget : Code := ⟨16, 0, [iNew, iInit, iGet]⟩

def mBudget : Method := ⟨some cBudget⟩

def iBuild1 : Insn := ⟨7, Opcode.invoke, none, false, [1], none, none, some ⟨100, buildName⟩, none⟩

def iBuild2 : Insn := ⟨8, Opcode.invoke, none, false, [1], none, none, some ⟨100, buildName⟩, none⟩

/-- A method invoking the builder's build method twice. -/
def cTwoBuilds : Code := ⟨3, 0, [iNew, iInit, iBuild1, iBuild2]⟩

def mTwoBuilds : Method := ⟨some cTwoBuilds⟩

/-- A method with one build invocation. -/
def cOneBuild : Code := ⟨3, 0, [iNew, iInit, iBuild1]⟩

def mOneBuild : Method := ⟨some cOneBuild⟩

def mNoCode : Method := ⟨none⟩

def finOvw : FieldsRegs := [(fX, ⟨FieldOrRegStatus.overwritten, some iPut⟩)]

def finReg : FieldsRegs := [(fX, ⟨FieldOrRegStatus.reg 0, some iPut⟩)]

def finUndef : FieldsRegs := [(fX, ⟨FieldOrRegStatus.undefined, none⟩)]

def cUndef : Code := ⟨3, 0, [iNew, iInit, iGet]⟩

def mUndef : Method := ⟨some cUndef⟩

def cUndefResult : Code := ⟨4, 0, [nullConstInsn 3, mkMove MoveKind.plain 2 3]⟩

def mUndefResult : Method := ⟨some cUndefResult⟩

lemma findF_mapVals (h : FieldState → FieldState) (l : FieldsRegs) (f : FieldRef) :
    findF (mapVals h l) f = (findF l f).map h := by
  induction l with
  | nil => rfl
  | cons p ps ih =>
    by_cases hp : p.1 = f
    · simp [mapVals, findF, hp]
    · simpa [mapVals, findF, hp] using ih

lemma findF_append_of_none (l1 l2 : FieldsRegs) (f : FieldRef)
    (h : findF l1 f = none) : findF (l1 ++ l2) f = findF l2 f := by
  induction l1 with
  | nil => rfl
  | cons p ps ih =>
    by_cases hp : p.1 = f
    · simp [findF, hp] at h
    · simp only [findF, hp, if_neg, List.cons_append] at h ⊢
      simp [hp] at h ⊢
      exact ih h

lemma findF_append_of_some (l1 l2 : FieldsRegs) (f : FieldRef) (v : FieldState)
    (h : findF l1 f = some v) : findF (l1 ++ l2) f = some v := by
  induction l1 with
  | nil => simp [findF] at h
  | cons p ps ih =>
    by_cases hp : p.1 = f
    · simp [findF, hp] at h ⊢; exact h
    · simp [findF, hp] at h ⊢; exact ih h

lemma findF_putField_self (l : FieldsRegs) (f : FieldRef) (st : FieldState) :
    findF (putField l f st) f = some st := by
  induction l with
  | nil => simp [putField, findF]
  | cons p ps ih =>
    by_cases hp : p.1 = f
    · simp [putField, hp, findF]
    · by_cases ha : ps.any (fun q => q.1 = f) = true
      · have ih2 := ih
        simp only [putField, ha, if_pos] at ih2
        simp only [putField, List.any_cons, hp, ha]
        simp [findF, hp]
        simpa using ih2
      · have ih2 := ih
        simp only [putField] at ih2
        rw [if_neg (by simpa using ha)] at ih2
        simp only [putField, List.any_cons]
        rw [if_neg (by simp [hp, ha])]
        simp [findF, hp]
        simpa using ih2

lemma findF_map_putOther (l : FieldsRegs) (f f2 : FieldRef) (st : FieldState)
    (h : f2 ≠ f) :
    findF (l.map (fun p => if p.1 = f2 then (f2, st) else p)) f = findF l f := by
  induction l with
  | nil => rfl
  | cons p ps ih =>
    by_cases hp : p.1 = f2
    · simp [findF, hp, h]
      exact ih
    · simp [findF, hp]
      split
      · rfl
      · exact ih

lemma findF_putField_other (l : FieldsRegs) (f f2 : FieldRef) (st : FieldState)
    (h : f2 ≠ f) : findF (putField l f2 st) f = findF l f := by
  unfold putField
  split
  · exact findF_map_putOther l f f2 st h
  · cases hf : findF l f with
    | none => rw [findF_append_of_none _ _ _ hf]; simp [findF, h, hf]
    | some v => rw [findF_append_of_some _ _ _ _ hf]

lemma planInsn_deletes (b : Builder) (ni : Nat) (st : PlanState) (insn : Insn)
    (fr : FieldsRegs) (st2 : PlanState)
    (h : planInsn b ni st insn fr = some st2) :
    st2.deletes = st.deletes ++
      (if referencesBuilder b insn = true then [insn] else []) := by
  unfold planInsn at h
  cases hop : insn.opcode with
  | iput k =>
    rw [hop] at h
    simp only [isIput, if_true] at h
    cases hf : insn.field with
    | none =>
      simp only [hf] at h
      rw [← Option.some.inj h]
      simp [referencesBuilder, hop, hf, isIput, isIget, isInvoke]
    | some fld =>
      simp only [hf] at h
      by_cases hcls : fld.cls = b.type
      · rw [if_pos hcls] at h
        rw [← Option.some.inj h]
        simp [referencesBuilder, hop, hf, isIput, isIget, isInvoke, hcls]
      · rw [if_neg hcls] at h
        rw [← Option.some.inj h]
        simp [referencesBuilder, hop, hf, isIput, isIget, isInvoke, hcls]
  | iget k =>
    rw [hop] at h
    simp only [isIput, isIget, if_true, if_false, Bool.false_eq_true] at h
    cases hf : insn.field with
    | none =>
      simp only [hf] at h
      rw [← Option.some.inj h]
      simp [referencesBuilder, hop, hf, isIput, isIget, isInvoke]
    | some fld =>
      simp only [hf] at h
      by_cases hcls : fld.cls = b.type
      · rw [if_pos hcls] at h
        by_cases hd : (lookupF fr fld).status = FieldOrRegStatus.different
        · rw [if_pos hd] at h
          exact absurd h (by simp)
        · rw [if_neg hd] at h
          by_cases hu : (lookupF fr fld).status = FieldOrRegStatus.undefined
          · rw [if_pos hu] at h
            cases hnl : st.nullReg with
            | none =>
              simp only [hnl] at h
              rw [← Option.some.inj h]
              simp [referencesBuilder, hop, hf, isIput, isIget, isInvoke, hcls]
            | some nr =>
              simp only [hnl] at h
              rw [← Option.some.inj h]
              simp [referencesBuilder, hop, hf, isIput, isIget, isInvoke, hcls]
          · rw [if_neg hu] at h
            cases hip : (lookupF fr fld).iput with
            | none =>
              simp only [hip] at h
              exact absurd h (by simp)
            | some ipi =>
              simp only [hip] at h
              cases hfm : findMove st.moves ipi with
              | some pr =>
                simp only [hfm] at h
                rw [← Option.some.inj h]
                simp [referencesBuilder, hop, hf, isIput, isIget, isInvoke, hcls]
              | none =>
                simp only [hfm] at h
                by_cases hov : (lookupF fr fld).status = FieldOrRegStatus.overwritten
                · rw [if_pos hov] at h
                  rw [← Option.some.inj h]
                  simp [referencesBuilder, hop, hf, isIput, isIget, isInvoke, hcls]
                · rw [if_neg hov] at h
                  rw [← Option.some.inj h]
                  simp [referencesBuilder, hop, hf, isIput, isIget, isInvoke, hcls]
      · rw [if_neg hcls] at h
        rw [← Option.some.inj h]
        simp [referencesBuilder, hop, hf, isIput, isIget, isInvoke, hcls]
  | newInstance =>
    rw [hop] at h
    simp only [isIput, isIget, if_false, if_true, Bool.false_eq_true] at h
    by_cases ht : insn.typeRef = some b.type
    · rw [if_pos ht] at h
      rw [← Option.some.inj h]
      simp [referencesBuilder, hop, ht, isIput, isIget, isInvoke]
    · rw [if_neg ht] at h
      rw [← Option.some.inj h]
      simp [referencesBuilder, hop, ht, isIput, isIget, isInvoke]
  | invoke =>
    rw [hop] at h
    simp only [isIput, isIget, isInvoke, if_false, if_true, Bool.false_eq_true] at h
    cases hmr : insn.methodRef with
    | none =>
      simp only [hmr] at h
      rw [← Option.some.inj h]
      simp [referencesBuilder, hop, hmr, isIput, isIget, isInvoke]
    | some mr =>
      simp only [hmr] at h
      by_cases hcn : mr.cls = b.type ∧ mr.name = initName
      · rw [if_pos hcn] at h
        rw [← Option.some.inj h]
        simp [referencesBuilder, hop, hmr, isIput, isIget, isInvoke, hcn.1, hcn.2]
      · rw [if_neg hcn] at h
        rw [← Option.some.inj h]
        simp only [referencesBuilder, hop, hmr, isIput, isIget, isInvoke]
        rw [if_neg (by simpa [Decidable.not_and_iff_or_not, decide_eq_true_eq] using hcn)]
        simp
  | move k =>
    rw [hop] at h
    simp only [isIput, isIget, isInvoke, if_false, Bool.false_eq_true] at h
    rw [← Option.some.inj h]
    simp [referencesBuilder, hop, isIput, isIget, isInvoke]
  | const4 =>
    rw [hop] at h
    simp only [isIput, isIget, isInvoke, if_false, Bool.false_eq_true] at h
    rw [← Option.some.inj h]
    simp [referencesBuilder, hop, isIput, isIget, isInvoke]
  | other =>
    rw [hop] at h
    simp only [isIput, isIget, isInvoke, if_false, Bool.false_eq_true] at h
    rw [← Option.some.inj h]
    simp [referencesBuilder, hop, isIput, isIget, isInvoke]

lemma planStates_deletes (b : Builder) (ni : Nat) :
    ∀ (L : List (Insn × FieldsRegs)) (st st2 : PlanState),
      planStates b ni L st = some st2 →
      st2.deletes = st.deletes ++
        (L.map Prod.fst).filter (fun i => referencesBuilder b i) := by
  intro L
  induction L with
  | nil =>
    intro st st2 h
    simp only [planStates] at h
    rw [← Option.some.inj h]
    simp
  | cons p ps ih =>
    intro st st2 h
    simp only [planStates] at h
    cases hpi : planInsn b ni st p.1 p.2 with
    | none => rw [hpi] at h; exact absurd h (by simp)
    | some st1 =>
      rw [hpi] at h
      have h1 := planInsn_deletes b ni st p.1 p.2 st1 hpi
      have h2 := ih st1 st2 h
      rw [h2, h1]
      by_cases hr : referencesBuilder b p.1 = true
      · simp [hr, List.filter_cons]
      · simp only [Bool.not_eq_true] at hr
        simp [hr, List.filter_cons]

lemma fields_setters_fst (b : Builder) :
    ∀ (l : List Insn) (fr : FieldsRegs),
      (fields_setters fr b l).map Prod.fst = l := by
  intro l
  induction l with
  | nil => intro fr; rfl
  | cons i is ih =>
    intro fr
    simp only [fields_setters, List.map_cons]
    rw [ih]

lemma occCount_append (v : Insn) (l1 l2 : List Insn) :
    occCount v (l1 ++ l2) = occCount v l1 + occCount v l2 := by
  induction l1 with
  | nil => simp [occCount]
  | cons x xs ih => simp [occCount, ih]; omega

lemma occCount_pos_of_mem (v : Insn) (l : List Insn) (h : v ∈ l) :
    0 < occCount v l := by
  induction l with
  | nil => simp at h
  | cons x xs ih =>
    rcases List.mem_cons.mp h with h1 | h1
    · simp [occCount, h1.symm]
    · have := ih h1
      simp only [occCount]
      omega

lemma occCount_eraseFirst (v d : Insn) (l : List Insn) :
    occCount v (eraseFirst l d) = occCount v l - (if d = v then 1 else 0) := by
  induction l with
  | nil => simp [eraseFirst, occCount]
  | cons x xs ih =>
    by_cases hx : x = d
    · subst hx
      simp only [eraseFirst, if_pos rfl, occCount]
      by_cases hv : x = v
      · simp [hv]
      · simp [hv]
    · simp only [eraseFirst, if_neg hx, occCount, ih]
      by_cases hv : x = v
      · by_cases hd : d = v
        · exact absurd (hv.trans hd.symm) hx
        · simp [hv, hd]
      · simp [hv]

lemma occCount_eraseFold (v : Insn) :
    ∀ (ds : List Insn) (acc : List Insn),
      occCount v (ds.foldl eraseFirst acc) = occCount v acc - occCount v ds := by
  intro ds
  induction ds with
  | nil => intro acc; simp [occCount]
  | cons d ds ih =>
    intro acc
    simp only [List.foldl_cons, occCount]
    rw [ih, occCount_eraseFirst]
    omega

lemma occCount_insertAfter (v posn : Insn) (new : List Insn)
    (hnew : occCount v new = 0) :
    ∀ l : List Insn, occCount v (insertAfter l posn new) = occCount v l := by
  intro l
  induction l with
  | nil => rfl
  | cons x xs ih =>
    by_cases hx : x = posn
    · simp only [insertAfter, if_pos hx, occCount, occCount_append, hnew]
      omega
    · simp only [insertAfter, if_neg hx, occCount, ih]

lemma referencesBuilder_mkMove (b : Builder) (k : MoveKind) (d s : Nat) :
    referencesBuilder b (mkMove k d s) = false := rfl

lemma referencesBuilder_nullConst (b : Builder) (r : Nat) :
    referencesBuilder b (nullConstInsn r) = false := rfl

lemma occCount_single_mkMove (b : Builder) (v : Insn) (k : MoveKind)
    (d sr : Nat) (hv : referencesBuilder b v = true) :
    occCount v [mkMove k d sr] = 0 := by
  have hne : mkMove k d sr ≠ v := by
    intro hc
    rw [← hc] at hv
    rw [referencesBuilder_mkMove] at hv
    exact Bool.false_ne_true hv
  simp [occCount, hne]

lemma occCount_applyMove (b : Builder) (v : Insn)
    (hv : referencesBuilder b v = true) (insns : List Insn)
    (mv : Insn × Nat × MoveKind) :
    occCount v (applyMove insns mv) = occCount v insns := by
  show occCount v (insertAfter insns mv.1 [mkMove mv.2.2 _ _]) = occCount v insns
  exact occCount_insertAfter v mv.1 _ (occCount_single_mkMove b v _ _ _ hv) insns

lemma occCount_moveFold (b : Builder) (v : Insn)
    (hv : referencesBuilder b v = true) :
    ∀ (ml : MoveList) (insns : List Insn),
      occCount v (ml.foldl applyMove insns) = occCount v insns := by
  intro ml
  induction ml with
  | nil => intro insns; rfl
  | cons m ms ih =>
    intro insns
    simp only [List.foldl_cons]
    rw [ih, occCount_applyMove b v hv]

lemma occCount_filter_of_true (v : Insn) (p : Insn → Bool) (hp : p v = true) :
    ∀ l : List Insn, occCount v (l.filter p) = occCount v l := by
  intro l
  induction l with
  | nil => rfl
  | cons x xs ih =>
    by_cases hx : x = v
    · subst hx
      simp [List.filter_cons, hp, occCount, ih]
    · by_cases hpx : p x = true
      · simp [List.filter_cons, hpx, occCount, hx, ih]
      · simp only [Bool.not_eq_true] at hpx
        simp [List.filter_cons, hpx, occCount, hx, ih]

/-- Shape of a successful run of `remove_builder`: the plan fold
succeeded, the frame grew by exactly the planned extra registers, and
the final instruction list is the committed one. -/
lemma remove_builder_success_shape (m : Method) (b : Builder) (m2 : Method)
    (h : remove_builder m b = (true, m2)) :
    ∃ code plan, m.code = some code ∧ buildPlan b code = some plan ∧
      code.registersSize + plan.extraRegs ≤ 16 ∧
      m2 = ⟨some ⟨code.registersSize + plan.extraRegs, code.insSize,
        method_updates
          (match plan.nullReg with
           | some r => add_null_instr code.insns r
           | none => code.insns) plan.deletes plan.moves⟩⟩ := by
  unfold remove_builder at h
  cases hc : m.code with
  | none => rw [hc] at h; exact absurd h (by simp)
  | some code =>
    simp only [hc] at h
    cases hp : buildPlan b code with
    | none => rw [hp] at h; exact absurd h (by simp)
    | some plan =>
      simp only [hp] at h
      cases he : enlarge_register_frame code.registersSize plan.extraRegs with
      | none => rw [he] at h; exact absurd h (by simp)
      | some nr =>
        simp only [he] at h
        simp only [enlarge_register_frame] at he
        by_cases hgt : code.registersSize + plan.extraRegs > 16
        · rw [if_pos hgt] at he; exact absurd he (by simp)
        · rw [if_neg hgt] at he
          simp only [Prod.mk.injEq, true_and] at h
          refine ⟨code, plan, rfl, hp, by omega, ?_⟩
          rw [← h, ← Option.some.inj he]

lemma buildPlan_deletes (b : Builder) (code : Code) (plan : PlanState)
    (h : buildPlan b code = some plan) :
    plan.deletes = code.insns.filter (fun i => referencesBuilder b i) := by
  unfold buildPlan at h
  have h2 := planStates_deletes b (code.registersSize - code.insSize) _ _ _ h
  rw [fields_setters_fst] at h2
  simpa [emptyPlan] using h2

lemma applyMove_cons (x : Insn) (xs : List Insn) (mv : Insn × Nat × MoveKind) :
    ∃ ys, applyMove (x :: xs) mv = x :: ys := by
  simp only [applyMove, add_move_instr, insertAfter]
  split
  · exact ⟨_, rfl⟩
  · exact ⟨_, rfl⟩

lemma moveFold_cons (x : Insn) :
    ∀ (ml : MoveList) (xs : List Insn),
      ∃ ys, ml.foldl applyMove (x :: xs) = x :: ys := by
  intro ml
  induction ml with
  | nil => intro xs; exact ⟨xs, rfl⟩
  | cons mv ms ih =>
    intro xs
    simp only [List.foldl_cons]
    obtain ⟨ys, hy⟩ := applyMove_cons x xs mv
    rw [hy]
    exact ih ys

lemma eraseFold_cons (x : Insn) :
    ∀ (ds : List Insn) (xs : List Insn), (∀ d ∈ ds, d ≠ x) →
      ∃ ys, ds.foldl eraseFirst (x :: xs) = x :: ys := by
  intro ds
  induction ds with
  | nil => intro xs _; exact ⟨xs, rfl⟩
  | cons d ds ih =>
    intro xs hd
    simp only [List.foldl_cons]
    have hne : x ≠ d := fun hc => (hd d (by simp)) hc.symm
    rw [show eraseFirst (x :: xs) d = x :: eraseFirst xs d from by
      simp [eraseFirst, hne]]
    exact ih _ (fun e he => hd e (by simp [he]))

/-- C1.  Every abort outcome of `remove_builder` (ambiguous field
value, unresolved originating write, register budget exceeded, and the
defensive missing-body check) returns failure with the method exactly
as it was: no instruction inserted or deleted and the register frame
untouched. -/
theorem remove_builder_abort_unchanged :
    ∀ (m : Method) (b : Builder),
      (remove_builder m b).1 = false → (remove_builder m b).2 = m := by
  intro m b h
  unfold remove_builder at h ⊢
  cases hc : m.code with
  | none => simp
  | some code =>
    simp only [hc] at h ⊢
    cases hp : buildPlan b code with
    | none => simp [hp]
    | some plan =>
      simp only [hp] at h ⊢
      cases he : enlarge_register_frame code.registersSize plan.extraRegs with
      | none => simp [he]
      | some nr => simp [he] at h

/-- Witness for C1: the register-budget abort on `mBudget` leaves the
method unchanged. -/
theorem remove_builder_abort_unchanged_witness :
    (remove_builder mBudget bLin).1 = false ∧
      (remove_builder mBudget bLin).2 = mBudget :=
  ⟨by decide, remove_builder_abort_unchanged mBudget bLin (by decide)⟩

/-- C2 counterexample.  The source's per-field meet does not match the
spec's reference definition: joining an `Undefined` state carrying no
write with a `Register(5)` state carrying a write produces `Different`
with the write reference cleared, whereas the spec's words carry the
other side's write reference along and do not keep `Undefined` when the
other side provides a write. -/
theorem meet_undefined_register_counterexample :
    meetField ⟨FieldOrRegStatus.undefined, none⟩ ⟨FieldOrRegStatus.reg 5, some iPut⟩ =
        ⟨FieldOrRegStatus.different, none⟩ ∧
      specMeetField ⟨FieldOrRegStatus.undefined, none⟩ ⟨FieldOrRegStatus.reg 5, some iPut⟩ =
        ⟨FieldOrRegStatus.reg 5, some iPut⟩ ∧
      meetField ⟨FieldOrRegStatus.undefined, none⟩ ⟨FieldOrRegStatus.reg 5, some iPut⟩ ≠
        specMeetField ⟨FieldOrRegStatus.undefined, none⟩ ⟨FieldOrRegStatus.reg 5, some iPut⟩ := by
  refine ⟨by decide, by decide, by decide⟩

/-- C2 amended.  The per-field meet of two predecessor states equals
the amended reference definition: `Bottom` yields the other side
(status and write reference); when the other side is `Bottom` the left
side is kept; two equal statuses (the same register, both `Undefined`,
or both `Overwritten`) keep the left side and its write reference; any
two differing non-`Bottom` statuses — `Undefined` versus a register and
`Overwritten` versus a register included — join to `Different` with the
write reference cleared. -/
theorem meet_matches_amended_reference :
    ∀ a b : FieldState, meetField a b = amendedMeetField a b := by
  intro a b
  rcases a with ⟨sa, ia⟩
  rcases b with ⟨sb, ib⟩
  cases sa <;> cases sb <;>
    simp [meetField, amendedMeetField]

/-- C3.  The register allocator reports capacity exceeded exactly when
the new size would pass the architectural ceiling 16, and otherwise
grows the frame by exactly the request; `remove_builder` aborts with
the method unchanged when the planned extra registers break the
budget, and on success the final count is the old count plus the
planned extra registers, and at most 16. -/
theorem register_budget_respected :
    ∀ (oldregs extra : Nat) (m : Method) (b : Builder) (code : Code)
      (plan : PlanState),
      ((oldregs + extra > 16 → enlarge_register_frame oldregs extra = none) ∧
        (∀ n, enlarge_register_frame oldregs extra = some n →
          n = oldregs + extra ∧ n ≤ 16)) ∧
      (m.code = some code → buildPlan b code = some plan →
        ((code.registersSize + plan.extraRegs > 16 →
            remove_builder m b = (false, m)) ∧
         (∀ m2 code2, remove_builder m b = (true, m2) → m2.code = some code2 →
            code2.registersSize = code.registersSize + plan.extraRegs ∧
            code2.registersSize ≤ 16))) := by
  intro oldregs extra m b code plan
  refine ⟨⟨?_, ?_⟩, ?_⟩
  · intro h
    unfold enlarge_register_frame
    simp [h]
  · intro n hn
    unfold enlarge_register_frame at hn
    by_cases hgt : oldregs + extra > 16
    · simp [hgt] at hn
    · simp [hgt] at hn
      omega
  · intro hc hp
    constructor
    · intro hgt
      unfold remove_builder
      simp only [hc, hp]
      unfold enlarge_register_frame
      simp [hgt]
    · intro m2 code2 hrb hc2
      unfold remove_builder at hrb
      simp only [hc, hp] at hrb
      cases he : enlarge_register_frame code.registersSize plan.extraRegs with
      | none => rw [he] at hrb; simp at hrb
      | some nr =>
        rw [he] at hrb
        simp only [Prod.mk.injEq] at hrb
        unfold enlarge_register_frame at he
        by_cases hgt : code.registersSize + plan.extraRegs > 16
        · simp [hgt] at he
        · simp [hgt] at he
          have hm2 : m2 = ⟨some ⟨nr, code.insSize, _⟩⟩ := hrb.2.symm
          rw [hm2] at hc2
          simp only [Method.mk.injEq, Option.some.injEq] at hc2
          rw [← hc2]
          constructor
          · simp [← he]
          · simp [← he]; omega

/-- Witness for C3: on the linear method the transformation succeeds
with zero extra registers and the frame stays at three registers. -/
theorem register_budget_respected_witness :
    mLin.code = some cLin ∧ buildPlan bLin cLin = some ⟨
        [iNew, iInit, iPut, iGet], [(iGet, 0, MoveKind.plain)], 0, none⟩ ∧
      remove_builder mLin bLin = (true, mLinResult) ∧
      mLinResult.code = some ⟨3, 0, [iConst, mkMove MoveKind.plain 2 0]⟩ ∧
      (3 : Nat) = cLin.registersSize + (0 : Nat) ∧ (3 : Nat) ≤ 16 := by
  have h := (register_budget_respected cLin.registersSize 0 mLin bLin cLin
      ⟨[iNew, iInit, iPut, iGet], [(iGet, 0, MoveKind.plain)], 0, none⟩).2
      rfl (by decide)
  have h2 := h.2 mLinResult ⟨3, 0, [iConst, mkMove MoveKind.plain 2 0]⟩
      (by decide) rfl
  exact ⟨rfl, by decide, by decide, rfl, h2.1, h2.2⟩

/-- C4.  A field read whose state at the read is `Overwritten` with an
identified originating write `w` makes the planner allocate the next
fresh register and record exactly two moves with that register — one
anchored at `w` (spliced immediately after it by `method_updates`) and
one anchored at the read — consuming two consecutive fresh registers
for a wide value and one for a narrow value; a later read bridging the
same originating write reuses the already planned register and adds
only the read-site move, allocating nothing. -/
theorem overwritten_read_bridge_plan :
    ∀ (b : Builder) (nonInput : Nat) (st : PlanState) (insn w : Insn)
      (fin : FieldsRegs) (fld : FieldRef) (k : MoveKind),
      insn.opcode = Opcode.iget k → insn.field = some fld → fld.cls = b.type →
      (lookupF fin fld).status = FieldOrRegStatus.overwritten →
      (lookupF fin fld).iput = some w →
      ((findMove st.moves w = none →
        planInsn b nonInput st insn fin = some
          ⟨st.deletes ++ [insn],
           st.moves ++ [(w, nonInput + st.extraRegs, get_move_opcode w),
             (insn, nonInput + st.extraRegs, get_move_opcode w)],
           st.extraRegs + (if get_move_opcode w = MoveKind.wide then 2 else 1),
           st.nullReg⟩) ∧
      (∀ r km, findMove st.moves w = some (r, km) →
        planInsn b nonInput st insn fin = some
          ⟨st.deletes ++ [insn], st.moves ++ [(insn, r, get_move_opcode w)],
           st.extraRegs, st.nullReg⟩)) := by
  intro b nonInput st insn w fin fld k hop hf hcls hst hip
  constructor
  · intro hfm
    simp [planInsn, hop, isIput, isIget, hf, hcls, hst, hip, hfm]
  · intro r km hfm
    simp [planInsn, hop, isIput, isIget, hf, hcls, hst, hip, hfm]

/-- Witness for C4: bridging the overwritten field of the concrete
scenario plans the two moves on fresh register 3. -/
theorem overwritten_read_bridge_plan_witness :
    iGet.opcode = Opcode.iget MoveKind.plain ∧ iGet.field = some fX ∧
      fX.cls = bLin.type ∧
      (lookupF finOvw fX).status = FieldOrRegStatus.overwritten ∧
      (lookupF finOvw fX).iput = some iPut ∧
      findMove emptyPlan.moves iPut = none ∧
      planInsn bLin 3 emptyPlan iGet finOvw = some
        ⟨[iGet], [(iPut, 3, MoveKind.plain), (iGet, 3, MoveKind.plain)], 1, none⟩ := by
  refine ⟨rfl, rfl, rfl, rfl, rfl, rfl, ?_⟩
  have h := (overwritten_read_bridge_plan bLin 3 emptyPlan iGet iPut finOvw fX
    MoveKind.plain rfl rfl rfl rfl rfl).1 rfl
  rw [h]
  decide

/-- C5.  A field read whose state is `Register(r)` with no bridge
planned and `r` the originating write's source register is satisfied
by a single move sourced from `r`, with no extra register and no null
register; and on the concrete linear-builder method the whole
transformation keeps the register frame at its old size, reuses `v0`
directly and deletes the allocation, constructor call, field write and
field read. -/
theorem register_read_direct_reuse :
    (∀ (b : Builder) (nonInput : Nat) (st : PlanState) (insn w : Insn)
      (fin : FieldsRegs) (fld : FieldRef) (k : MoveKind) (r : Nat),
      insn.opcode = Opcode.iget k → insn.field = some fld → fld.cls = b.type →
      (lookupF fin fld).status = FieldOrRegStatus.reg r →
      (lookupF fin fld).iput = some w →
      findMove st.moves w = none → w.srcs.headD 0 = r →
      planInsn b nonInput st insn fin = some
        ⟨st.deletes ++ [insn], st.moves ++ [(insn, r, get_move_opcode w)],
         st.extraRegs, st.nullReg⟩) ∧
    remove_builder mLin bLin = (true, mLinResult) := by
  constructor
  · intro b nonInput st insn w fin fld k r hop hf hcls hst hip hfm hsrc
    simp [planInsn, hop, isIput, isIget, hf, hcls, hst, hip, hfm]
    simpa using hsrc
  · decide

/-- Witness for C5: the read of a field held in register 0 plans the
single move from register 0 and allocates nothing. -/
theorem register_read_direct_reuse_witness :
    (lookupF finReg fX).status = FieldOrRegStatus.reg 0 ∧
      (lookupF finReg fX).iput = some iPut ∧ iPut.srcs.headD 0 = 0 ∧
      planInsn bLin 3 emptyPlan iGet finReg = some
        ⟨[iGet], [(iGet, 0, MoveKind.plain)], 0, none⟩ := by
  refine ⟨rfl, rfl, rfl, ?_⟩
  have h := register_read_direct_reuse.1 bLin 3 emptyPlan iGet iPut finReg fX
    MoveKind.plain 0 rfl rfl rfl rfl rfl rfl rfl
  rw [h]
  decide

/-- C6.  The null register is allocated lazily at most once: the first
`Undefined` read allocates it and every further `Undefined` read
reuses the same register, always through a plain move; and on a
successful commit the method starts with exactly one constant load of
the null value into that register when it was planned, while no
instruction is inserted at the entry when it was not. -/
theorem null_register_lazy_shared :
    (∀ (b : Builder) (nonInput : Nat) (st : PlanState) (insn : Insn)
      (fin : FieldsRegs) (fld : FieldRef) (k : MoveKind),
      insn.opcode = Opcode.iget k → insn.field = some fld → fld.cls = b.type →
      (lookupF fin fld).status = FieldOrRegStatus.undefined →
      ((st.nullReg = none →
        planInsn b nonInput st insn fin = some
          ⟨st.deletes ++ [insn],
           st.moves ++ [(insn, nonInput + st.extraRegs, MoveKind.plain)],
           st.extraRegs + 1, some (nonInput + st.extraRegs)⟩) ∧
      (∀ r, st.nullReg = some r →
        planInsn b nonInput st insn fin = some
          ⟨st.deletes ++ [insn], st.moves ++ [(insn, r, MoveKind.plain)],
           st.extraRegs, some r⟩))) ∧
    (∀ (m : Method) (b : Builder) (code : Code) (plan : PlanState)
      (m2 : Method) (code2 : Code),
      m.code = some code → buildPlan b code = some plan →
      remove_builder m b = (true, m2) → m2.code = some code2 →
      ((∀ r, plan.nullReg = some r →
        code2.insns.head? = some (nullConstInsn r)) ∧
      (plan.nullReg = none →
        code2.insns = method_updates code.insns plan.deletes plan.moves))) := by
  constructor
  · intro b nonInput st insn fin fld k hop hf hcls hst
    constructor
    · intro hnl
      simp [planInsn, hop, isIput, isIget, hf, hcls, hst, hnl]
    · intro r hnl
      simp [planInsn, hop, isIput, isIget, hf, hcls, hst, hnl]
  · intro m b code plan m2 code2 hc hp hrb hc2
    obtain ⟨code', plan', hc', hp', hle, hm2⟩ := remove_builder_success_shape m b m2 hrb
    rw [hc] at hc'
    have hcode : code' = code := (Option.some.inj hc').symm
    have hp2 : buildPlan b code = some plan' := hcode ▸ hp'
    rw [hp] at hp2
    have hplan : plan' = plan := (Option.some.inj hp2).symm
    rw [hcode, hplan] at hm2
    subst hm2
    have hc2b : method_updates
        (match plan.nullReg with
         | some r => add_null_instr code.insns r
         | none => code.insns) plan.deletes plan.moves = code2.insns := by
      have := Option.some.inj hc2
      rw [← this]
    constructor
    · intro r hnl
      rw [← hc2b, hnl]
      show (method_updates (add_null_instr code.insns r)
        plan.deletes plan.moves).head? = some (nullConstInsn r)
      unfold method_updates add_null_instr
      obtain ⟨ys, hy⟩ := moveFold_cons (nullConstInsn r) plan.moves code.insns
      rw [hy]
      have hdref : ∀ d ∈ plan.deletes, d ≠ nullConstInsn r := by
        intro d hd hcon
        have hdel := buildPlan_deletes b code plan hp
        rw [hdel] at hd
        have := List.of_mem_filter hd
        rw [hcon, referencesBuilder_nullConst] at this
        exact Bool.false_ne_true this
      obtain ⟨zs, hz⟩ := eraseFold_cons (nullConstInsn r) plan.deletes ys hdref
      rw [hz]
      rfl
    · intro hnl
      rw [← hc2b, hnl]

/-- Witness for C6: the undefined-read method allocates null register
3 once and its transformed body starts with the null constant load. -/
theorem null_register_lazy_shared_witness :
    (lookupF finUndef fX).status = FieldOrRegStatus.undefined ∧
      planInsn bLin 3 emptyPlan iGet finUndef = some
        ⟨[iGet], [(iGet, 3, MoveKind.plain)], 1, some 3⟩ ∧
      buildPlan bLin cUndef = some
        ⟨[iNew, iInit, iGet], [(iGet, 3, MoveKind.plain)], 1, some 3⟩ ∧
      remove_builder mUndef bLin = (true, mUndefResult) ∧
      cUndefResult.insns.head? = some (nullConstInsn 3) := by
  refine ⟨rfl, ?_, by decide, by decide, ?_⟩
  · have h := ((null_register_lazy_shared.1 bLin 3 emptyPlan iGet finUndef fX
      MoveKind.plain) rfl rfl rfl rfl).1 rfl
    rw [h]
    decide
  · exact (null_register_lazy_shared.2 mUndef bLin cUndef
      ⟨[iNew, iInit, iGet], [(iGet, 3, MoveKind.plain)], 1, some 3⟩
      mUndefResult cUndefResult rfl (by decide) (by decide) rfl).1 3 rfl

/-- C7.  More than one invocation of the builder's build method makes
`inline_build` fail with the method unchanged, independently of the
inliner (so before any inlining); exactly one invocation is handed to
the inliner, whose result becomes the method body, and a failing
inliner yields an abort. -/
theorem inline_build_single_invocation :
    ∀ (m : Method) (b : Builder) (code : Code), m.code = some code →
      (((buildInvocations b code).length > 1 →
        ∀ inliner : Code → Insn → Option Code,
          inline_build inliner m b = (false, m)) ∧
      (∀ site : Insn, buildInvocations b code = [site] →
        ∀ inliner : Code → Insn → Option Code,
          (∀ code2, inliner code site = some code2 →
            inline_build inliner m b = (true, ⟨some code2⟩)) ∧
          (inliner code site = none →
            inline_build inliner m b = (false, m)))) := by
  intro m b code hc
  constructor
  · intro hlen inliner
    unfold inline_build
    simp only [hc]
    rw [if_pos hlen]
  · intro site hsite inliner
    constructor
    · intro code2 hinl
      unfold inline_build
      simp only [hc, hsite]
      simp [hinl]
    · intro hinl
      unfold inline_build
      simp only [hc, hsite]
      simp [hinl]

/-- Witness for C7: two build invocations abort with the method
unchanged, and on the single-invocation method the inliner's result is
installed. -/
theorem inline_build_single_invocation_witness :
    mTwoBuilds.code = some cTwoBuilds ∧
      (buildInvocations bLin cTwoBuilds).length > 1 ∧
      inline_build (fun c _ => some c) mTwoBuilds bLin = (false, mTwoBuilds) ∧
      buildInvocations bLin cOneBuild = [iBuild1] ∧
      inline_build (fun _ _ => some cLin) mOneBuild bLin = (true, ⟨some cLin⟩) := by
  refine ⟨rfl, by decide, ?_, by decide, ?_⟩
  · exact (inline_build_single_invocation mTwoBuilds bLin cTwoBuilds rfl).1
      (by decide) (fun c _ => some c)
  · exact ((inline_build_single_invocation mOneBuild bLin cOneBuild rfl).2
      iBuild1 (by decide) (fun _ _ => some cLin)).1 cLin rfl

/-- C8.  The transfer function sends every field currently mapped to
the instruction's destination register `d` — and, for a wide
destination, to `d + 1` — to `Overwritten`, except that a matching
builder field write leaves its own field in `Register(src)` with `src`
the write's source register and the write instruction remembered as
the state's originating write. -/
theorem fields_mapping_transfer :
    ∀ (b : Builder) (insn : Insn) (fregs : FieldsRegs) (fld : FieldRef)
      (st : FieldState) (d x : Nat),
      ((findF fregs fld = some st → st.status = FieldOrRegStatus.reg x →
        insn.dest = some d → (x = d ∨ (insn.destWide = true ∧ x = d + 1)) →
        ¬(isIput insn.opcode = true ∧ insn.field = some fld ∧ fld.cls = b.type) →
        findF (fields_mapping insn fregs b true) fld =
          some ⟨FieldOrRegStatus.overwritten, st.iput⟩) ∧
      (isIput insn.opcode = true → insn.field = some fld → fld.cls = b.type →
        findF (fields_mapping insn fregs b true) fld =
          some ⟨FieldOrRegStatus.reg (insn.srcs.headD 0), some insn⟩)) := by
  intro b insn fregs fld st d x
  constructor
  · intro hfind hst hdest hx hexc
    have hdem : demoteDefault st = st := by
      unfold demoteDefault
      rw [hst]
      simp
    have hcond : st.status = FieldOrRegStatus.reg d ∨
        insn.destWide = true ∧ st.status = FieldOrRegStatus.reg (d + 1) := by
      rcases hx with hx | ⟨hw, hx⟩
      · left; rw [hst, hx]
      · right; exact ⟨hw, by rw [hst, hx]⟩
    have hovw : overwriteByDest insn st = ⟨FieldOrRegStatus.overwritten, st.iput⟩ := by
      unfold overwriteByDest
      rw [hdest]
      show (if st.status = FieldOrRegStatus.reg d ∨
          insn.destWide = true ∧ st.status = FieldOrRegStatus.reg (d + 1) then
          (⟨FieldOrRegStatus.overwritten, st.iput⟩ : FieldState) else st) =
        ⟨FieldOrRegStatus.overwritten, st.iput⟩
      rw [if_pos hcond]
    have h2 : findF (mapVals (overwriteByDest insn)
        (mapVals demoteDefault fregs)) fld =
        some ⟨FieldOrRegStatus.overwritten, st.iput⟩ := by
      rw [findF_mapVals, findF_mapVals, hfind]
      simp [hdem, hovw]
    unfold fields_mapping
    cases hiput : isIput insn.opcode with
    | false => simpa [hiput] using h2
    | true =>
      simp only [hiput, Bool.and_true, Bool.true_and, Bool.and_false,
        Bool.false_and, Bool.or_false, Bool.false_or, Bool.not_true, if_true]
      cases hf : insn.field with
      | none => simpa using h2
      | some fld2 =>
        by_cases hcls : fld2.cls = b.type
        · have hne : fld2 ≠ fld := by
            intro hcontra
            exact hexc ⟨hiput, by rw [hf, hcontra], by rw [← hcontra]; exact hcls⟩
          simp only [hcls, if_true]
          exact (findF_putField_other _ _ _ _ hne).trans h2
        · simp only [hcls, if_false]
          exact h2
  · intro hiput hf hcls
    unfold fields_mapping
    simp only [hiput, hf, Bool.and_true, Bool.true_and, Bool.and_false,
      Bool.false_and, Bool.or_false, Bool.false_or, if_true]
    rw [if_pos hcls]
    exact findF_putField_self _ _ _

/-- Witness for C8: the constant load into register 0 overwrites the
field held there, and the field write installs `Register(0)`. -/
theorem fields_mapping_transfer_witness :
    findF [(fX, ⟨FieldOrRegStatus.reg 0, some iPut⟩)] fX =
        some ⟨FieldOrRegStatus.reg 0, some iPut⟩ ∧
      iConst.dest = some 0 ∧
      findF (fields_mapping iConst [(fX, ⟨FieldOrRegStatus.reg 0, some iPut⟩)]
          bLin true) fX = some ⟨FieldOrRegStatus.overwritten, some iPut⟩ ∧
      findF (fields_mapping iPut (initFieldsRegs bLin) bLin true) fX =
        some ⟨FieldOrRegStatus.reg 0, some iPut⟩ := by
  refine ⟨rfl, rfl, ?_, ?_⟩
  · exact (fields_mapping_transfer bLin iConst
      [(fX, ⟨FieldOrRegStatus.reg 0, some iPut⟩)] fX
      ⟨FieldOrRegStatus.reg 0, some iPut⟩ 0 0).1 rfl rfl rfl (Or.inl rfl)
      (by decide)
  · exact (fields_mapping_transfer bLin iPut (initFieldsRegs bLin) fX
      ⟨FieldOrRegStatus.default, none⟩ 0 0).2 rfl rfl rfl

/-- C9.  After a successful run of `remove_builder` no surviving
instruction references the builder type: every field access on a field
declared by the builder, every allocation of the builder type and
every constructor call targeting it has been deleted, and the
synthesized moves and constant loads carry no builder reference. -/
theorem elimination_completeness :
    ∀ (m : Method) (b : Builder) (m2 : Method) (code2 : Code),
      remove_builder m b = (true, m2) → m2.code = some code2 →
      ∀ i ∈ code2.insns, referencesBuilder b i = false := by
  intro m b m2 code2 hrb hc2 i hi
  by_contra href
  rw [Bool.not_eq_false] at href
  obtain ⟨code, plan, hc, hp, hle, hm2⟩ := remove_builder_success_shape m b m2 hrb
  subst hm2
  have hc2b : method_updates
      (match plan.nullReg with
       | some r => add_null_instr code.insns r
       | none => code.insns) plan.deletes plan.moves = code2.insns := by
    have := Option.some.inj hc2
    rw [← this]
  have hplan := buildPlan_deletes b code plan hp
  have h1 : occCount i code2.insns = 0 := by
    rw [← hc2b]
    unfold method_updates
    rw [occCount_eraseFold, occCount_moveFold b i href]
    rw [hplan, occCount_filter_of_true i _ href]
    cases hnl : plan.nullReg with
    | none =>
      show occCount i code.insns - occCount i code.insns = 0
      omega
    | some r =>
      have hne : nullConstInsn r ≠ i := by
        intro hcon
        rw [← hcon] at href
        rw [referencesBuilder_nullConst] at href
        exact Bool.false_ne_true href
      simp only [add_null_instr, occCount, if_neg hne]
      omega
  exact absurd (occCount_pos_of_mem i code2.insns hi) (by omega)

/-- Witness for C9: the surviving constant load of the transformed
linear method does not reference the builder. -/
theorem elimination_completeness_witness :
    remove_builder mLin bLin = (true, mLinResult) ∧
      mLinResult.code = some ⟨3, 0, [iConst, mkMove MoveKind.plain 2 0]⟩ ∧
      referencesBuilder bLin iConst = false := by
  refine ⟨by decide, rfl, ?_⟩
  exact elimination_completeness mLin bLin mLinResult
    ⟨3, 0, [iConst, mkMove MoveKind.plain 2 0]⟩ (by decide) rfl iConst (by decide)

/-- C10.  A method without an instruction body makes both public entry
points return failure without touching anything. -/
theorem missing_code_defensive :
    ∀ (inliner : Code → Insn → Option Code) (m : Method) (b : Builder),
      m.code = none →
      inline_build inliner m b = (false, m) ∧ remove_builder m b = (false, m) := by
  intro inliner m b h
  constructor
  · unfold inline_build
    simp [h]
  · unfold remove_builder
    simp [h]

/-- Witness for C10: the body-less method. -/
theorem missing_code_defensive_witness :
    mNoCode.code = none ∧
      inline_build (fun c _ => some c) mNoCode bLin = (false, mNoCode) ∧
      remove_builder mNoCode bLin = (false, mNoCode) :=
  have h := missing_code_defensive (fun c _ => some c) mNoCode bLin rfl
  ⟨rfl, h.1, h.2⟩

end RB
